import Mathlib

/-!
Verification of the CCM 1989 / O'Donnell 1994 dereddening routine.

The source program (deredden.py) computes extinction-corrected fluxes:
four band functions (`law_ir`, `law_nir`, `law_uv`, `law_fuv`) each
overwrite the positions of two coefficient vectors `a`, `b` whose
wavenumber (reciprocal wavelength) falls in their band, and `dered`
composes them and applies the closed-form flux transform.

Vectors are modelled as `List ℝ`; a numpy masked assignment
`a[mask(w)] = g(w[mask(w)])` is the element-wise update
`aᵢ ↦ if mask wᵢ then g wᵢ else aᵢ`, realised with `List.zipWith`.
numpy broadcasting of the final element-wise product (which succeeds
when lengths are equal or one operand has length 1, and is an error
otherwise) is modelled by `broadcastMul` returning `Option`.
-/

noncomputable section

/-- O'Donnell 1994 near-IR `a` polynomial in `y = k - 1.82` (source line 97). -/
def polyNirA (y : ℝ) : ℝ :=
  1 + 0.104*y - 0.609*y^2 + 0.701*y^3 + 1.137*y^4 - 1.718*y^5 - 0.827*y^6 + 1.647*y^7 - 0.505*y^8

/-- O'Donnell 1994 near-IR `b` polynomial in `y = k - 1.82` (source line 99). -/
def polyNirB (y : ℝ) : ℝ :=
  0 + 1.952*y + 2.908*y^2 - 3.989*y^3 - 7.985*y^4 + 11.102*y^5 + 5.491*y^6 - 10.805*y^7 + 3.347*y^8

/-- UV correction term `f_a` (source lines 137, 142-143): zero below wavenumber 5.9. -/
def f_a (k : ℝ) : ℝ :=
  if 5.9 ≤ k then -0.04473*(k - 5.9)^2 - 0.009779*(k - 5.9)^3 else 0

/-- UV correction term `f_b` (source lines 138, 142, 144): zero below wavenumber 5.9. -/
def f_b (k : ℝ) : ℝ :=
  if 5.9 ≤ k then -0.2130*(k - 5.9)^2 - 0.1207*(k - 5.9)^3 else 0

/-- UV band `a` value (source line 146). -/
def uvValA (k : ℝ) : ℝ := 1.752 - 0.316*k - 0.104/((k - 4.67)^2 + 0.341) + f_a k

/-- UV band `b` value (source line 147). -/
def uvValB (k : ℝ) : ℝ := -3.090 + 1.825*k + 1.206/((k - 4.62)^2 + 0.263) + f_b k

/-- Far-UV `a` cubic in `y = k - 8` (source line 184). -/
def polyFuvA (y : ℝ) : ℝ := -1.073 - 0.628*y + 0.137*y^2 - 0.070*y^3

/-- Far-UV `b` cubic in `y = k - 8` (source line 185). -/
def polyFuvB (y : ℝ) : ℝ := 13.670 + 4.257*y - 0.420*y^2 + 0.334*y^3

/-- IR band `a` power law (source line 46). -/
def irValA (k : ℝ) : ℝ := 0.574 * k ^ (1.61 : ℝ)

/-- IR band `b` power law (source line 47). -/
def irValB (k : ℝ) : ℝ := -0.527 * k ^ (1.61 : ℝ)

/-- Element-wise effect of `a[wave <= 1.1] = 0.574 * wave[wave <= 1.1]**1.61`. -/
def updIrA (ai k : ℝ) : ℝ := if k ≤ 1.1 then irValA k else ai

def updIrB (bi k : ℝ) : ℝ := if k ≤ 1.1 then irValB k else bi

/-- Element-wise effect of the masked near-IR assignment, mask `(wave > 1.1) & (wave <= 3.3)`. -/
def updNirA (ai k : ℝ) : ℝ := if 1.1 < k ∧ k ≤ 3.3 then polyNirA (k - 1.82) else ai

def updNirB (bi k : ℝ) : ℝ := if 1.1 < k ∧ k ≤ 3.3 then polyNirB (k - 1.82) else bi

/-- Element-wise effect of the masked UV assignment, mask `(wave >= 3.3) & (wave <= 8.0)`. -/
def updUvA (ai k : ℝ) : ℝ := if 3.3 ≤ k ∧ k ≤ 8.0 then uvValA k else ai

def updUvB (bi k : ℝ) : ℝ := if 3.3 ≤ k ∧ k ≤ 8.0 then uvValB k else bi

/-- Element-wise effect of the masked far-UV assignment, mask `(wave > 8.0) & (wave <= 10)`. -/
def updFuvA (ai k : ℝ) : ℝ := if 8.0 < k ∧ k ≤ 10 then polyFuvA (k - 8) else ai

def updFuvB (bi k : ℝ) : ℝ := if 8.0 < k ∧ k ≤ 10 then polyFuvB (k - 8) else bi

/-- `law_ir(a, b, wave)` of the source: overwrites positions with wavenumber ≤ 1.1. -/
def law_ir (a b wave : List ℝ) : List ℝ × List ℝ :=
  (List.zipWith updIrA a wave, List.zipWith updIrB b wave)

/-- `law_nir(a, b, wave)` of the source: overwrites positions with 1.1 < wavenumber ≤ 3.3. -/
def law_nir (a b wave : List ℝ) : List ℝ × List ℝ :=
  (List.zipWith updNirA a wave, List.zipWith updNirB b wave)

/-- `law_uv(a, b, wave)` of the source: overwrites positions with 3.3 ≤ wavenumber ≤ 8.0. -/
def law_uv (a b wave : List ℝ) : List ℝ × List ℝ :=
  (List.zipWith updUvA a wave, List.zipWith updUvB b wave)

/-- `law_fuv(a, b, wave)` of the source: overwrites positions with 8.0 < wavenumber ≤ 10. -/
def law_fuv (a b wave : List ℝ) : List ℝ × List ℝ :=
  (List.zipWith updFuvA a wave, List.zipWith updFuvB b wave)

/-- The source's `laws = [law_uv, law_fuv, law_nir, law_ir]`, in its application order. -/
def laws : List (List ℝ → List ℝ → List ℝ → List ℝ × List ℝ) :=
  [law_uv, law_fuv, law_nir, law_ir]

/-- The source's loop `for law in laws: a, b = law(a, b, wave)`, for an arbitrary order `ls`. -/
def runLaws (ls : List (List ℝ → List ℝ → List ℝ → List ℝ × List ℝ))
    (a b wave : List ℝ) : List ℝ × List ℝ :=
  ls.foldl (fun ab l => l ab.1 ab.2 wave) (a, b)

/-- The four band functions applied in the source's order. -/
def applyLaws (a b wave : List ℝ) : List ℝ × List ℝ := runLaws laws a b wave

/-- numpy 1-D broadcasting of the element-wise product: equal lengths zip,
a length-1 operand is stretched, anything else is a broadcast error. -/
def broadcastMul (xs ys : List ℝ) : Option (List ℝ) :=
  if xs.length = ys.length then some (List.zipWith (fun x y => x * y) xs ys)
  else if xs.length = 1 then some (ys.map (fun y => xs.headI * y))
  else if ys.length = 1 then some (xs.map (fun x => x * ys.headI))
  else none

/-- The per-position correction factor `10**(0.4 * ((e_bv * R_v) * (a + b/R_v)))` of
`dered`, computed from the wavenumbers `1/wave` and the zero-initialised
coefficient vectors after all four band functions (source lines 227-236). -/
def factorList (wave : List ℝ) (e_bv R_v : ℝ) : List ℝ :=
  let k := wave.map (fun w => 1 / w)
  let ab := applyLaws (List.replicate k.length 0) (List.replicate k.length 0) k
  List.zipWith (fun a b => (10 : ℝ) ^ (0.4 * ((e_bv * R_v) * (a + b / R_v)))) ab.1 ab.2

/-- `dered(wave, flux, e_bv, R_v)` of the source (default `R_v = 3.089` in the
source's signature; always passed explicitly here).  The source computes the
wavenumbers as `wave = 1/wave` in IEEE arithmetic, where `1/0 = inf` falls
outside every band mask; here `1/0 = 0` falls in the IR mask whose value at 0
is `0.574 * 0 ^ 1.61 = 0`, so a zero wavelength yields coefficients 0 under
both readings. -/
def dered (wave flux : List ℝ) (e_bv R_v : ℝ) : Option (List ℝ) :=
  broadcastMul flux (factorList wave e_bv R_v)

/-- IR band mask `wave <= 1.1` (source lines 46-47). -/
def irMask (k : ℝ) : Prop := k ≤ 1.1

/-- Near-IR band mask `(wave > 1.1) & (wave <= 3.3)` (source line 80). -/
def nirMask (k : ℝ) : Prop := 1.1 < k ∧ k ≤ 3.3

/-- UV band mask `(wave >= 3.3) & (wave <= 8.0)` (source line 134). -/
def uvMask (k : ℝ) : Prop := 3.3 ≤ k ∧ k ≤ 8.0

/-- Far-UV band mask `(wave > 8.0) & (wave <= 10)` (source line 182). -/
def fuvMask (k : ℝ) : Prop := 8.0 < k ∧ k ≤ 10

/-- Net element-wise effect on `a` of the source's application order
(uv, then fuv, then nir, then ir; a later write overwrites an earlier one). -/
def pointA (a0 k : ℝ) : ℝ := updIrA (updNirA (updFuvA (updUvA a0 k) k) k) k

/-- Net element-wise effect on `b` of the source's application order. -/
def pointB (b0 k : ℝ) : ℝ := updIrB (updNirB (updFuvB (updUvB b0 k) k) k) k

/-- Modelled from the spec's band table: the `a` coefficient at one wavenumber,
choosing the first matching band of the table (IR `k ≤ 1.1`, near-IR
`1.1 < k ≤ 3.3`, UV/optical `3.3 ≤ k ≤ 8.0`, far-UV `8.0 < k ≤ 10.0`),
and 0 outside every band. -/
def ccm_a (k : ℝ) : ℝ :=
  if k ≤ 1.1 then irValA k
  else if k ≤ 3.3 then polyNirA (k - 1.82)
  else if k ≤ 8.0 then uvValA k
  else if k ≤ 10 then polyFuvA (k - 8)
  else 0

/-- Modelled from the spec's band table: the `b` coefficient at one wavenumber. -/
def ccm_b (k : ℝ) : ℝ :=
  if k ≤ 1.1 then irValB k
  else if k ≤ 3.3 then polyNirB (k - 1.82)
  else if k ≤ 8.0 then uvValB k
  else if k ≤ 10 then polyFuvB (k - 8)
  else 0

theorem getD_zipWith (f : ℝ → ℝ → ℝ) (xs ys : List ℝ) (i : ℕ)
    (hx : i < xs.length) (hy : i < ys.length) :
    (List.zipWith f xs ys).getD i 0 = f (xs.getD i 0) (ys.getD i 0) := by
  induction xs generalizing ys i with
  | nil => simp at hx
  | cons x xs ih =>
    cases ys with
    | nil => simp at hy
    | cons y ys =>
      cases i with
      | zero => simp
      | succ n =>
        simp only [List.zipWith_cons_cons, List.getD_cons_succ]
        exact ih ys n (by simpa using hx) (by simpa using hy)

theorem getD_map_lt (f : ℝ → ℝ) (xs : List ℝ) (i : ℕ) (hx : i < xs.length) :
    (xs.map f).getD i 0 = f (xs.getD i 0) := by
  induction xs generalizing i with
  | nil => simp at hx
  | cons x xs ih =>
    cases i with
    | zero => simp
    | succ n =>
      simp only [List.map_cons, List.getD_cons_succ]
      exact ih n (by simpa using hx)

theorem getD_replicate_zero (n i : ℕ) : (List.replicate n (0 : ℝ)).getD i 0 = 0 := by
  induction n generalizing i with
  | zero => simp [List.replicate]
  | succ m ih =>
    cases i with
    | zero => simp [List.replicate]
    | succ j => simp only [List.replicate, List.getD_cons_succ]; exact ih j

theorem applyLaws_fst (a b wave : List ℝ) :
    (applyLaws a b wave).1 =
      List.zipWith updIrA (List.zipWith updNirA (List.zipWith updFuvA
        (List.zipWith updUvA a wave) wave) wave) wave := rfl

theorem applyLaws_snd (a b wave : List ℝ) :
    (applyLaws a b wave).2 =
      List.zipWith updIrB (List.zipWith updNirB (List.zipWith updFuvB
        (List.zipWith updUvB b wave) wave) wave) wave := rfl

theorem applyLaws_fst_length (a b wave : List ℝ) (ha : a.length = wave.length) :
    (applyLaws a b wave).1.length = wave.length := by
  rw [applyLaws_fst]; simp [ha]

theorem applyLaws_snd_length (a b wave : List ℝ) (hb : b.length = wave.length) :
    (applyLaws a b wave).2.length = wave.length := by
  rw [applyLaws_snd]; simp [hb]

theorem applyLaws_getD_fst (a b wave : List ℝ) (ha : a.length = wave.length)
    (i : ℕ) (hi : i < wave.length) :
    (applyLaws a b wave).1.getD i 0 = pointA (a.getD i 0) (wave.getD i 0) := by
  have l1 : (List.zipWith updUvA a wave).length = wave.length := by simp [ha]
  have l2 : (List.zipWith updFuvA (List.zipWith updUvA a wave) wave).length = wave.length := by
    simp [l1]
  have l3 : (List.zipWith updNirA (List.zipWith updFuvA
      (List.zipWith updUvA a wave) wave) wave).length = wave.length := by simp [l2]
  rw [applyLaws_fst,
    getD_zipWith _ _ _ i (by rw [l3]; exact hi) hi,
    getD_zipWith _ _ _ i (by rw [l2]; exact hi) hi,
    getD_zipWith _ _ _ i (by rw [l1]; exact hi) hi,
    getD_zipWith _ _ _ i (by rw [ha]; exact hi) hi]
  rfl

theorem applyLaws_getD_snd (a b wave : List ℝ) (hb : b.length = wave.length)
    (i : ℕ) (hi : i < wave.length) :
    (applyLaws a b wave).2.getD i 0 = pointB (b.getD i 0) (wave.getD i 0) := by
  have l1 : (List.zipWith updUvB b wave).length = wave.length := by simp [hb]
  have l2 : (List.zipWith updFuvB (List.zipWith updUvB b wave) wave).length = wave.length := by
    simp [l1]
  have l3 : (List.zipWith updNirB (List.zipWith updFuvB
      (List.zipWith updUvB b wave) wave) wave).length = wave.length := by simp [l2]
  rw [applyLaws_snd,
    getD_zipWith _ _ _ i (by rw [l3]; exact hi) hi,
    getD_zipWith _ _ _ i (by rw [l2]; exact hi) hi,
    getD_zipWith _ _ _ i (by rw [l1]; exact hi) hi,
    getD_zipWith _ _ _ i (by rw [hb]; exact hi) hi]
  rfl

theorem point_chain_eq (fir fnir fuv ffuv : ℝ → ℝ) (k : ℝ) :
    (if k ≤ 1.1 then fir k else
      if 1.1 < k ∧ k ≤ 3.3 then fnir k else
        if 8.0 < k ∧ k ≤ 10 then ffuv k else
          if 3.3 ≤ k ∧ k ≤ 8.0 then fuv k else 0) =
    (if k ≤ 1.1 then fir k else if k ≤ 3.3 then fnir k else
      if k ≤ 8.0 then fuv k else if k ≤ 10 then ffuv k else 0) := by
  rcases le_or_lt k 1.1 with h1 | h1
  · rw [if_pos h1, if_pos h1]
  · have h1' : ¬ k ≤ 1.1 := not_le.mpr h1
    rw [if_neg h1', if_neg h1']
    rcases le_or_lt k 3.3 with h2 | h2
    · rw [if_pos (⟨h1, h2⟩ : 1.1 < k ∧ k ≤ 3.3), if_pos h2]
    · have h2' : ¬ k ≤ 3.3 := not_le.mpr h2
      have hnir : ¬ (1.1 < k ∧ k ≤ 3.3) := fun h => h2' h.2
      rw [if_neg hnir, if_neg h2']
      rcases le_or_lt k 8.0 with h3 | h3
      · have hfuv : ¬ (8.0 < k ∧ k ≤ 10) := fun h => absurd h3 (not_le.mpr h.1)
        rw [if_neg hfuv, if_pos (⟨le_of_lt h2, h3⟩ : 3.3 ≤ k ∧ k ≤ 8.0), if_pos h3]
      · have h3' : ¬ k ≤ 8.0 := not_le.mpr h3
        have huv : ¬ (3.3 ≤ k ∧ k ≤ 8.0) := fun h => h3' h.2
        rw [if_neg h3']
        rcases le_or_lt k 10 with h4 | h4
        · rw [if_pos (⟨h3, h4⟩ : 8.0 < k ∧ k ≤ 10), if_pos h4]
        · have h4' : ¬ k ≤ 10 := not_le.mpr h4
          have hfuv : ¬ (8.0 < k ∧ k ≤ 10) := fun h => h4' h.2
          rw [if_neg hfuv, if_neg huv, if_neg h4']

theorem pointA_zero (k : ℝ) : pointA 0 k = ccm_a k := by
  unfold pointA ccm_a updIrA updNirA updFuvA updUvA
  exact point_chain_eq irValA (fun k => polyNirA (k - 1.82)) uvValA (fun k => polyFuvA (k - 8)) k

theorem pointB_zero (k : ℝ) : pointB 0 k = ccm_b k := by
  unfold pointB ccm_b updIrB updNirB updFuvB updUvB
  exact point_chain_eq irValB (fun k => polyNirB (k - 1.82)) uvValB (fun k => polyFuvB (k - 8)) k

theorem factorList_length (wave : List ℝ) (e R : ℝ) :
    (factorList wave e R).length = wave.length := by
  unfold factorList
  rw [List.length_zipWith,
    applyLaws_fst_length _ _ _ (by simp), applyLaws_snd_length _ _ _ (by simp)]
  simp

theorem factorList_getD (wave : List ℝ) (e R : ℝ) (i : ℕ) (hi : i < wave.length) :
    (factorList wave e R).getD i 0 =
      (10 : ℝ) ^ (0.4 * ((e * R) *
        (ccm_a (1 / wave.getD i 0) + ccm_b (1 / wave.getD i 0) / R))) := by
  unfold factorList
  have hk : (wave.map fun w => (1 : ℝ) / w).length = wave.length := by simp
  have hik : i < (wave.map fun w => (1 : ℝ) / w).length := by rw [hk]; exact hi
  have hA : (applyLaws (List.replicate (wave.map fun w => (1 : ℝ) / w).length 0)
      (List.replicate (wave.map fun w => (1 : ℝ) / w).length 0)
      (wave.map fun w => (1 : ℝ) / w)).1.length = wave.length := by
    rw [applyLaws_fst_length _ _ _ (by simp), hk]
  have hB : (applyLaws (List.replicate (wave.map fun w => (1 : ℝ) / w).length 0)
      (List.replicate (wave.map fun w => (1 : ℝ) / w).length 0)
      (wave.map fun w => (1 : ℝ) / w)).2.length = wave.length := by
    rw [applyLaws_snd_length _ _ _ (by simp), hk]
  rw [getD_zipWith _ _ _ i (by rw [hA]; exact hi) (by rw [hB]; exact hi),
    applyLaws_getD_fst _ _ _ (by simp) i hik,
    applyLaws_getD_snd _ _ _ (by simp) i hik,
    getD_replicate_zero, pointA_zero, pointB_zero,
    getD_map_lt _ _ i hi]

theorem zipWith_mul_ones (xs ys : List ℝ) (hlen : ys.length = xs.length)
    (hone : ∀ y ∈ ys, y = 1) : List.zipWith (fun x y => x * y) xs ys = xs := by
  induction xs generalizing ys with
  | nil =>
    cases ys with
    | nil => rfl
    | cons y ys => simp at hlen
  | cons x xs ih =>
    cases ys with
    | nil => simp at hlen
    | cons y ys =>
      simp only [List.zipWith_cons_cons]
      rw [hone y (List.mem_cons_self y ys), mul_one]
      congr 1
      exact ih ys (by simpa using hlen) (fun z hz => hone z (List.mem_cons_of_mem y hz))

theorem mem_zipWith_const (f : ℝ → ℝ → ℝ) (c : ℝ) (h : ∀ x y, f x y = c) :
    ∀ (xs ys : List ℝ), ∀ z ∈ List.zipWith f xs ys, z = c := by
  intro xs
  induction xs with
  | nil => intro ys z hz; simp at hz
  | cons x xs ih =>
    intro ys z hz
    cases ys with
    | nil => simp at hz
    | cons y ys =>
      rw [List.zipWith_cons_cons, List.mem_cons] at hz
      rcases hz with h1 | h1
      · rw [h1, h x y]
      · exact ih ys z h1

theorem dered_spec (wave flux : List ℝ) (e R : ℝ) (hlen : wave.length = flux.length) :
    ∃ out : List ℝ, dered wave flux e R = some out ∧ out.length = flux.length ∧
      ∀ i, i < flux.length →
        out.getD i 0 = flux.getD i 0 *
          (10 : ℝ) ^ (0.4 * ((e * R) *
            (ccm_a (1 / wave.getD i 0) + ccm_b (1 / wave.getD i 0) / R))) := by
  have hfl : flux.length = (factorList wave e R).length := by
    rw [factorList_length, hlen]
  refine ⟨List.zipWith (fun x y => x * y) flux (factorList wave e R), ?_, ?_, ?_⟩
  · unfold dered broadcastMul
    rw [if_pos hfl]
  · rw [List.length_zipWith, ← hfl, min_self]
  · intro i hi
    rw [getD_zipWith _ _ _ i hi (by rw [← hfl]; exact hi),
      factorList_getD wave e R i (by rw [hlen]; exact hi)]

/-- C1: for a strictly positive wavelength vector and a flux vector of the same
length, `dered(wave, flux, e_bv, R_v)` returns a vector of the same length as
`flux` whose i-th element is
`flux[i] * 10^(0.4 * (e_bv * R_v) * (a(k_i) + b(k_i)/R_v))` with `k_i = 1/wave[i]`
and `a`, `b` the band coefficient values at `k_i`. -/
theorem dered_pointwise_formula (wave flux : List ℝ) (e R : ℝ)
    (_hpos : ∀ w ∈ wave, 0 < w) (hlen : wave.length = flux.length) :
    ∃ out : List ℝ, dered wave flux e R = some out ∧ out.length = flux.length ∧
      ∀ i, i < flux.length →
        out.getD i 0 = flux.getD i 0 *
          (10 : ℝ) ^ (0.4 * ((e * R) *
            (ccm_a (1 / wave.getD i 0) + ccm_b (1 / wave.getD i 0) / R))) :=
  dered_spec wave flux e R hlen

theorem dered_pointwise_formula_witness :
    ∃ out : List ℝ, dered [2] [3] 1 2 = some out ∧ out.length = [(3 : ℝ)].length ∧
      ∀ i, i < [(3 : ℝ)].length →
        out.getD i 0 = [(3 : ℝ)].getD i 0 *
          (10 : ℝ) ^ (0.4 * ((1 * 2) *
            (ccm_a (1 / [(2 : ℝ)].getD i 0) + ccm_b (1 / [(2 : ℝ)].getD i 0) / 2))) :=
  dered_pointwise_formula [2] [3] 1 2
    (by intro w hw; rw [List.mem_singleton] at hw; rw [hw]; norm_num) rfl

/-- C2: at every position with wavenumber `k ≤ 1.1`, the coefficient vectors
produced by the band functions hold `a = 0.574 * k^1.61` and
`b = -0.527 * k^1.61`. -/
theorem ir_band_coeffs (a b k : List ℝ) (ha : a.length = k.length)
    (hb : b.length = k.length) (i : ℕ) (hi : i < k.length)
    (hk : k.getD i 0 ≤ 1.1) :
    (applyLaws a b k).1.getD i 0 = 0.574 * k.getD i 0 ^ (1.61 : ℝ) ∧
    (applyLaws a b k).2.getD i 0 = -0.527 * k.getD i 0 ^ (1.61 : ℝ) := by
  rw [applyLaws_getD_fst a b k ha i hi, applyLaws_getD_snd a b k hb i hi]
  unfold pointA pointB updIrA updIrB
  rw [if_pos hk, if_pos hk]
  exact ⟨rfl, rfl⟩

theorem ir_band_coeffs_witness :
    (applyLaws [0] [0] [1]).1.getD 0 0 = 0.574 * [(1 : ℝ)].getD 0 0 ^ (1.61 : ℝ) ∧
    (applyLaws [0] [0] [1]).2.getD 0 0 = -0.527 * [(1 : ℝ)].getD 0 0 ^ (1.61 : ℝ) :=
  ir_band_coeffs [0] [0] [1] rfl rfl 0 (by norm_num) (by norm_num)

/-- C3: at every position with wavenumber `1.1 < k ≤ 3.3`, the coefficients are
the O'Donnell 1994 degree-8 polynomials in `y = k - 1.82`; in particular at
`k = 1.82` exactly, `a = 1` and `b = 0`. -/
theorem nir_band_coeffs (a b k : List ℝ) (ha : a.length = k.length)
    (hb : b.length = k.length) (i : ℕ) (hi : i < k.length)
    (h1 : 1.1 < k.getD i 0) (h2 : k.getD i 0 ≤ 3.3) :
    (applyLaws a b k).1.getD i 0 =
      1 + 0.104*(k.getD i 0 - 1.82) - 0.609*(k.getD i 0 - 1.82)^2
        + 0.701*(k.getD i 0 - 1.82)^3 + 1.137*(k.getD i 0 - 1.82)^4
        - 1.718*(k.getD i 0 - 1.82)^5 - 0.827*(k.getD i 0 - 1.82)^6
        + 1.647*(k.getD i 0 - 1.82)^7 - 0.505*(k.getD i 0 - 1.82)^8 ∧
    (applyLaws a b k).2.getD i 0 =
      0 + 1.952*(k.getD i 0 - 1.82) + 2.908*(k.getD i 0 - 1.82)^2
        - 3.989*(k.getD i 0 - 1.82)^3 - 7.985*(k.getD i 0 - 1.82)^4
        + 11.102*(k.getD i 0 - 1.82)^5 + 5.491*(k.getD i 0 - 1.82)^6
        - 10.805*(k.getD i 0 - 1.82)^7 + 3.347*(k.getD i 0 - 1.82)^8 ∧
    (k.getD i 0 = 1.82 →
      (applyLaws a b k).1.getD i 0 = 1 ∧ (applyLaws a b k).2.getD i 0 = 0) := by
  rw [applyLaws_getD_fst a b k ha i hi, applyLaws_getD_snd a b k hb i hi]
  unfold pointA pointB updIrA updIrB updNirA updNirB
  have h1' : ¬ k.getD i 0 ≤ 1.1 := not_le.mpr h1
  have hnir : 1.1 < k.getD i 0 ∧ k.getD i 0 ≤ 3.3 := ⟨h1, h2⟩
  rw [if_neg h1', if_neg h1', if_pos hnir, if_pos hnir]
  refine ⟨rfl, rfl, ?_⟩
  intro h182
  rw [h182]
  constructor <;> norm_num [polyNirA, polyNirB]

theorem nir_band_coeffs_witness :
    ((applyLaws [0] [0] [2]).1.getD 0 0 =
      1 + 0.104*([(2 : ℝ)].getD 0 0 - 1.82) - 0.609*([(2 : ℝ)].getD 0 0 - 1.82)^2
        + 0.701*([(2 : ℝ)].getD 0 0 - 1.82)^3 + 1.137*([(2 : ℝ)].getD 0 0 - 1.82)^4
        - 1.718*([(2 : ℝ)].getD 0 0 - 1.82)^5 - 0.827*([(2 : ℝ)].getD 0 0 - 1.82)^6
        + 1.647*([(2 : ℝ)].getD 0 0 - 1.82)^7 - 0.505*([(2 : ℝ)].getD 0 0 - 1.82)^8) ∧
    ((applyLaws [0] [0] [2]).2.getD 0 0 =
      0 + 1.952*([(2 : ℝ)].getD 0 0 - 1.82) + 2.908*([(2 : ℝ)].getD 0 0 - 1.82)^2
        - 3.989*([(2 : ℝ)].getD 0 0 - 1.82)^3 - 7.985*([(2 : ℝ)].getD 0 0 - 1.82)^4
        + 11.102*([(2 : ℝ)].getD 0 0 - 1.82)^5 + 5.491*([(2 : ℝ)].getD 0 0 - 1.82)^6
        - 10.805*([(2 : ℝ)].getD 0 0 - 1.82)^7 + 3.347*([(2 : ℝ)].getD 0 0 - 1.82)^8) ∧
    ([(2 : ℝ)].getD 0 0 = 1.82 →
      (applyLaws [0] [0] [2]).1.getD 0 0 = 1 ∧ (applyLaws [0] [0] [2]).2.getD 0 0 = 0) :=
  nir_band_coeffs [0] [0] [2] rfl rfl 0 (by norm_num) (by norm_num) (by norm_num)

/-- C4: at every position whose wavenumber lies in the UV/optical band
(`3.3 ≤ k ≤ 8.0`), `law_uv` writes
`a = 1.752 - 0.316k - 0.104/((k-4.67)² + 0.341) + f_a` and
`b = -3.090 + 1.825k + 1.206/((k-4.62)² + 0.263) + f_b`, where `f_a`, `f_b`
are the cubic corrections for `k ≥ 5.9` and 0 below; at `k = 5.9` exactly,
`f_a = f_b = 0`. -/
theorem uv_band_coeffs (a b k : List ℝ) (ha : a.length = k.length)
    (hb : b.length = k.length) (i : ℕ) (hi : i < k.length)
    (h1 : 3.3 ≤ k.getD i 0) (h2 : k.getD i 0 ≤ 8.0) :
    (law_uv a b k).1.getD i 0 =
      1.752 - 0.316*(k.getD i 0) - 0.104/((k.getD i 0 - 4.67)^2 + 0.341) + f_a (k.getD i 0) ∧
    (law_uv a b k).2.getD i 0 =
      -3.090 + 1.825*(k.getD i 0) + 1.206/((k.getD i 0 - 4.62)^2 + 0.263) + f_b (k.getD i 0) ∧
    (5.9 ≤ k.getD i 0 →
      f_a (k.getD i 0) = -0.04473*(k.getD i 0 - 5.9)^2 - 0.009779*(k.getD i 0 - 5.9)^3 ∧
      f_b (k.getD i 0) = -0.2130*(k.getD i 0 - 5.9)^2 - 0.1207*(k.getD i 0 - 5.9)^3) ∧
    (k.getD i 0 < 5.9 → f_a (k.getD i 0) = 0 ∧ f_b (k.getD i 0) = 0) ∧
    (k.getD i 0 = 5.9 → f_a (k.getD i 0) = 0 ∧ f_b (k.getD i 0) = 0) := by
  unfold law_uv
  rw [getD_zipWith _ _ _ i (by rw [ha]; exact hi) hi,
    getD_zipWith _ _ _ i (by rw [hb]; exact hi) hi]
  unfold updUvA updUvB
  have huv : 3.3 ≤ k.getD i 0 ∧ k.getD i 0 ≤ 8.0 := ⟨h1, h2⟩
  rw [if_pos huv, if_pos huv]
  refine ⟨rfl, rfl, ?_, ?_, ?_⟩
  · intro h59
    unfold f_a f_b
    rw [if_pos h59, if_pos h59]
    exact ⟨rfl, rfl⟩
  · intro h59
    unfold f_a f_b
    rw [if_neg (not_le.mpr h59), if_neg (not_le.mpr h59)]
    exact ⟨rfl, rfl⟩
  · intro h59
    unfold f_a f_b
    rw [h59]
    norm_num

theorem uv_band_coeffs_witness :
    ((law_uv [0] [0] [4]).1.getD 0 0 =
      1.752 - 0.316*([(4 : ℝ)].getD 0 0) - 0.104/(([(4 : ℝ)].getD 0 0 - 4.67)^2 + 0.341)
        + f_a ([(4 : ℝ)].getD 0 0)) ∧
    ((law_uv [0] [0] [4]).2.getD 0 0 =
      -3.090 + 1.825*([(4 : ℝ)].getD 0 0) + 1.206/(([(4 : ℝ)].getD 0 0 - 4.62)^2 + 0.263)
        + f_b ([(4 : ℝ)].getD 0 0)) ∧
    (5.9 ≤ [(4 : ℝ)].getD 0 0 →
      f_a ([(4 : ℝ)].getD 0 0) =
        -0.04473*([(4 : ℝ)].getD 0 0 - 5.9)^2 - 0.009779*([(4 : ℝ)].getD 0 0 - 5.9)^3 ∧
      f_b ([(4 : ℝ)].getD 0 0) =
        -0.2130*([(4 : ℝ)].getD 0 0 - 5.9)^2 - 0.1207*([(4 : ℝ)].getD 0 0 - 5.9)^3) ∧
    ([(4 : ℝ)].getD 0 0 < 5.9 →
      f_a ([(4 : ℝ)].getD 0 0) = 0 ∧ f_b ([(4 : ℝ)].getD 0 0) = 0) ∧
    ([(4 : ℝ)].getD 0 0 = 5.9 →
      f_a ([(4 : ℝ)].getD 0 0) = 0 ∧ f_b ([(4 : ℝ)].getD 0 0) = 0) :=
  uv_band_coeffs [0] [0] [4] rfl rfl 0 (by norm_num) (by norm_num) (by norm_num)

/-- C6: with zero reddening, `dered(wave, flux, 0, R_v)` returns `flux`
unchanged for any strictly positive wavelengths, equal-length flux and any
`R_v` (the correction factor is `10^0 = 1` at every position). -/
theorem dered_zero_reddening (wave flux : List ℝ) (R : ℝ)
    (_hpos : ∀ w ∈ wave, 0 < w) (hlen : wave.length = flux.length) :
    dered wave flux 0 R = some flux := by
  unfold dered broadcastMul
  have hfl : flux.length = (factorList wave 0 R).length := by rw [factorList_length, hlen]
  rw [if_pos hfl]
  congr 1
  apply zipWith_mul_ones flux (factorList wave 0 R) hfl.symm
  unfold factorList
  apply mem_zipWith_const
  intro x y
  simp [Real.rpow_zero]

theorem dered_zero_reddening_witness : dered [2] [7] 0 3 = some [7] :=
  dered_zero_reddening [2] [7] 3
    (by intro w hw; rw [List.mem_singleton] at hw; rw [hw]; norm_num) rfl

/-- C10: at a position whose wavenumber `1/wave[i]` exceeds 10, no band function
writes the position (each band mask is false there), the coefficients stay at
the initial `a = b = 0`, and the returned flux at that position equals the
input flux, for every `e_bv` and `R_v`. -/
theorem out_of_range_unchanged (wave flux : List ℝ) (e R : ℝ)
    (hlen : wave.length = flux.length) (i : ℕ) (hi : i < wave.length)
    (hk : 10 < 1 / wave.getD i 0) :
    (∀ x : ℝ, pointA x (1 / wave.getD i 0) = x) ∧
    (∀ x : ℝ, pointB x (1 / wave.getD i 0) = x) ∧
    ccm_a (1 / wave.getD i 0) = 0 ∧ ccm_b (1 / wave.getD i 0) = 0 ∧
    ∃ out : List ℝ, dered wave flux e R = some out ∧
      out.getD i 0 = flux.getD i 0 := by
  have h1 : ¬ (1 / wave.getD i 0 ≤ 1.1) := not_le.mpr (by linarith)
  have h2 : ¬ (1.1 < 1 / wave.getD i 0 ∧ 1 / wave.getD i 0 ≤ 3.3) :=
    fun h => absurd h.2 (not_le.mpr (by linarith))
  have h3 : ¬ (8.0 < 1 / wave.getD i 0 ∧ 1 / wave.getD i 0 ≤ 10) :=
    fun h => absurd h.2 (not_le.mpr (by linarith))
  have h4 : ¬ (3.3 ≤ 1 / wave.getD i 0 ∧ 1 / wave.getD i 0 ≤ 8.0) :=
    fun h => absurd h.2 (not_le.mpr (by linarith))
  have hpa : ∀ x : ℝ, pointA x (1 / wave.getD i 0) = x := by
    intro x
    unfold pointA updIrA updNirA updFuvA updUvA
    rw [if_neg h1, if_neg h2, if_neg h3, if_neg h4]
  have hpb : ∀ x : ℝ, pointB x (1 / wave.getD i 0) = x := by
    intro x
    unfold pointB updIrB updNirB updFuvB updUvB
    rw [if_neg h1, if_neg h2, if_neg h3, if_neg h4]
  have hca : ccm_a (1 / wave.getD i 0) = 0 := by rw [← pointA_zero]; exact hpa 0
  have hcb : ccm_b (1 / wave.getD i 0) = 0 := by rw [← pointB_zero]; exact hpb 0
  obtain ⟨out, hsome, _hl, hgd⟩ := dered_spec wave flux e R hlen
  refine ⟨hpa, hpb, hca, hcb, out, hsome, ?_⟩
  rw [hgd i (by rw [← hlen]; exact hi), hca, hcb]
  simp [Real.rpow_zero]

theorem zipWith_upd_comm (g h : ℝ → ℝ → ℝ) :
    ∀ (wave a : List ℝ), (∀ x : ℝ, ∀ w ∈ wave, g (h x w) w = h (g x w) w) →
      List.zipWith g (List.zipWith h a wave) wave =
        List.zipWith h (List.zipWith g a wave) wave := by
  intro wave
  induction wave with
  | nil => intro a _; simp
  | cons w ws ih =>
    intro a hcomm
    cases a with
    | nil => simp
    | cons x xs =>
      simp only [List.zipWith_cons_cons]
      rw [hcomm x w (List.mem_cons_self w ws)]
      congr 1
      exact ih xs (fun y w' hw' => hcomm y w' (List.mem_cons_of_mem w hw'))

theorem law_uv_fuv_comm (a b k : List ℝ) :
    law_fuv (law_uv a b k).1 (law_uv a b k).2 k =
      law_uv (law_fuv a b k).1 (law_fuv a b k).2 k := by
  unfold law_uv law_fuv
  simp only [Prod.mk.injEq]
  refine ⟨?_, ?_⟩
  · apply zipWith_upd_comm
    intro x w _
    unfold updFuvA updUvA
    exact ite_ite_comm _ _ _ _ (fun hfu huv => absurd huv.2 (not_le.mpr hfu.1))
  · apply zipWith_upd_comm
    intro x w _
    unfold updFuvB updUvB
    exact ite_ite_comm _ _ _ _ (fun hfu huv => absurd huv.2 (not_le.mpr hfu.1))

theorem law_uv_nir_comm (a b k : List ℝ) (hk : ∀ w ∈ k, w ≠ 3.3) :
    law_nir (law_uv a b k).1 (law_uv a b k).2 k =
      law_uv (law_nir a b k).1 (law_nir a b k).2 k := by
  unfold law_uv law_nir
  simp only [Prod.mk.injEq]
  refine ⟨?_, ?_⟩
  · apply zipWith_upd_comm
    intro x w hw
    unfold updNirA updUvA
    exact ite_ite_comm _ _ _ _ (fun hn hu => absurd (le_antisymm hn.2 hu.1) (hk w hw))
  · apply zipWith_upd_comm
    intro x w hw
    unfold updNirB updUvB
    exact ite_ite_comm _ _ _ _ (fun hn hu => absurd (le_antisymm hn.2 hu.1) (hk w hw))

theorem law_uv_ir_comm (a b k : List ℝ) :
    law_ir (law_uv a b k).1 (law_uv a b k).2 k =
      law_uv (law_ir a b k).1 (law_ir a b k).2 k := by
  unfold law_uv law_ir
  simp only [Prod.mk.injEq]
  refine ⟨?_, ?_⟩
  · apply zipWith_upd_comm
    intro x w _
    unfold updIrA updUvA
    exact ite_ite_comm _ _ _ _ (fun hir huv => by linarith [huv.1])
  · apply zipWith_upd_comm
    intro x w _
    unfold updIrB updUvB
    exact ite_ite_comm _ _ _ _ (fun hir huv => by linarith [huv.1])

theorem law_fuv_nir_comm (a b k : List ℝ) :
    law_nir (law_fuv a b k).1 (law_fuv a b k).2 k =
      law_fuv (law_nir a b k).1 (law_nir a b k).2 k := by
  unfold law_fuv law_nir
  simp only [Prod.mk.injEq]
  refine ⟨?_, ?_⟩
  · apply zipWith_upd_comm
    intro x w _
    unfold updNirA updFuvA
    exact ite_ite_comm _ _ _ _ (fun hn hf => by linarith [hn.2, hf.1])
  · apply zipWith_upd_comm
    intro x w _
    unfold updNirB updFuvB
    exact ite_ite_comm _ _ _ _ (fun hn hf => by linarith [hn.2, hf.1])

theorem law_fuv_ir_comm (a b k : List ℝ) :
    law_ir (law_fuv a b k).1 (law_fuv a b k).2 k =
      law_fuv (law_ir a b k).1 (law_ir a b k).2 k := by
  unfold law_fuv law_ir
  simp only [Prod.mk.injEq]
  refine ⟨?_, ?_⟩
  · apply zipWith_upd_comm
    intro x w _
    unfold updIrA updFuvA
    exact ite_ite_comm _ _ _ _ (fun hir hf => by linarith [hf.1])
  · apply zipWith_upd_comm
    intro x w _
    unfold updIrB updFuvB
    exact ite_ite_comm _ _ _ _ (fun hir hf => by linarith [hf.1])

theorem law_nir_ir_comm (a b k : List ℝ) :
    law_ir (law_nir a b k).1 (law_nir a b k).2 k =
      law_nir (law_ir a b k).1 (law_ir a b k).2 k := by
  unfold law_nir law_ir
  simp only [Prod.mk.injEq]
  refine ⟨?_, ?_⟩
  · apply zipWith_upd_comm
    intro x w _
    unfold updIrA updNirA
    exact ite_ite_comm _ _ _ _ (fun hir hn => by linarith [hn.1])
  · apply zipWith_upd_comm
    intro x w _
    unfold updIrB updNirB
    exact ite_ite_comm _ _ _ _ (fun hir hn => by linarith [hn.1])

/-- C7 (amended): the four band masks are pairwise disjoint except that
wavenumber 3.3 satisfies both the near-IR and the UV mask; for every
wavenumber vector with no entry equal to 3.3, applying the four band
functions in any order yields the same coefficient vectors as the source's
order. -/
theorem laws_disjoint_and_order_immaterial (k : List ℝ) (hk : ∀ w ∈ k, w ≠ 3.3)
    (ls : List (List ℝ → List ℝ → List ℝ → List ℝ × List ℝ))
    (hperm : ls.Perm laws) :
    (∀ x : ℝ, ¬ (irMask x ∧ nirMask x)) ∧
    (∀ x : ℝ, ¬ (irMask x ∧ uvMask x)) ∧
    (∀ x : ℝ, ¬ (irMask x ∧ fuvMask x)) ∧
    (∀ x : ℝ, ¬ (nirMask x ∧ fuvMask x)) ∧
    (∀ x : ℝ, ¬ (uvMask x ∧ fuvMask x)) ∧
    (∀ x : ℝ, nirMask x → uvMask x → x = 3.3) ∧
    (∀ a b : List ℝ, runLaws ls a b k = runLaws laws a b k) := by
  refine ⟨?_, ?_, ?_, ?_, ?_, ?_, ?_⟩
  · intro x h
    unfold irMask nirMask at h
    linarith [h.1, h.2.1]
  · intro x h
    unfold irMask uvMask at h
    linarith [h.1, h.2.1]
  · intro x h
    unfold irMask fuvMask at h
    linarith [h.1, h.2.1]
  · intro x h
    unfold nirMask fuvMask at h
    linarith [h.1.2, h.2.1]
  · intro x h
    unfold uvMask fuvMask at h
    linarith [h.1.2, h.2.1]
  · intro x h1 h2
    unfold nirMask at h1
    unfold uvMask at h2
    exact le_antisymm h1.2 h2.1
  · intro a b
    unfold runLaws
    apply List.Perm.foldl_eq' hperm
    intro x hx y hy z
    have hx' : x ∈ laws := hperm.subset hx
    have hy' : y ∈ laws := hperm.subset hy
    unfold laws at hx' hy'
    simp only [List.mem_cons, List.not_mem_nil, or_false] at hx' hy'
    rcases hx' with rfl | rfl | rfl | rfl <;> rcases hy' with rfl | rfl | rfl | rfl
    · rfl
    · exact law_uv_fuv_comm z.1 z.2 k
    · exact law_uv_nir_comm z.1 z.2 k hk
    · exact law_uv_ir_comm z.1 z.2 k
    · exact (law_uv_fuv_comm z.1 z.2 k).symm
    · rfl
    · exact law_fuv_nir_comm z.1 z.2 k
    · exact law_fuv_ir_comm z.1 z.2 k
    · exact (law_uv_nir_comm z.1 z.2 k hk).symm
    · exact (law_fuv_nir_comm z.1 z.2 k).symm
    · rfl
    · exact law_nir_ir_comm z.1 z.2 k
    · exact (law_uv_ir_comm z.1 z.2 k).symm
    · exact (law_fuv_ir_comm z.1 z.2 k).symm
    · exact (law_nir_ir_comm z.1 z.2 k).symm
    · rfl

theorem laws_disjoint_and_order_immaterial_witness :
    (∀ x : ℝ, ¬ (irMask x ∧ nirMask x)) ∧
    (∀ x : ℝ, ¬ (irMask x ∧ uvMask x)) ∧
    (∀ x : ℝ, ¬ (irMask x ∧ fuvMask x)) ∧
    (∀ x : ℝ, ¬ (nirMask x ∧ fuvMask x)) ∧
    (∀ x : ℝ, ¬ (uvMask x ∧ fuvMask x)) ∧
    (∀ x : ℝ, nirMask x → uvMask x → x = 3.3) ∧
    (∀ a b : List ℝ,
      runLaws [law_fuv, law_uv, law_nir, law_ir] a b [2] = runLaws laws a b [2]) :=
  laws_disjoint_and_order_immaterial [2]
    (by intro w hw; rw [List.mem_singleton] at hw; rw [hw]; norm_num)
    [law_fuv, law_uv, law_nir, law_ir]
    (List.Perm.swap law_uv law_fuv [law_nir, law_ir])

/-- C7 counterexample: wavenumber 3.3 lies in both the near-IR and the UV mask,
and on the vector [3.3] applying the laws with `law_uv` after `law_nir`
yields different coefficients than the source's order (which runs `law_nir`
after `law_uv`), so the masks are not pairwise disjoint and the order is not
immaterial. -/
theorem laws_overlap_at_33 :
    (nirMask 3.3 ∧ uvMask 3.3) ∧
    runLaws [law_nir, law_uv, law_fuv, law_ir] [0] [0] [(3.3 : ℝ)] ≠
      runLaws laws [0] [0] [(3.3 : ℝ)] := by
  constructor
  · exact ⟨⟨by norm_num, by norm_num⟩, ⟨by norm_num, by norm_num⟩⟩
  · intro h
    have h1 : (runLaws [law_nir, law_uv, law_fuv, law_ir] [0] [0] [(3.3 : ℝ)]).1.getD 0 0 =
        (runLaws laws [0] [0] [(3.3 : ℝ)]).1.getD 0 0 := by rw [h]
    norm_num [runLaws, laws, law_uv, law_fuv, law_nir, law_ir, updIrA, updNirA,
      updFuvA, updUvA, updIrB, updNirB, updFuvB, updUvB, polyNirA, polyNirB,
      uvValA, uvValB, f_a, f_b] at h1

theorem eq_singleton_of_length_getD (out : List ℝ) (c : ℝ) (h1 : out.length = 1)
    (h2 : out.getD 0 0 = c) : out = [c] := by
  cases out with
  | nil => simp at h1
  | cons x t =>
    cases t with
    | nil => rw [← h2]; rfl
    | cons y s => simp at h1

/-- C5 (amended): a position with wavenumber exactly 8.0 falls in the UV band
(mask `wave <= 8.0`), not the far-UV band (mask `wave > 8.0`), so after all
band functions the coefficients equal the UV formula at `k = 8`
(`a ≈ -1.07292`, `b ≈ 9.55606`); `law_fuv` leaves the position untouched, and
the values differ from the far-UV `y = 0` values `-1.073` and `13.670`. -/
theorem boundary_k8_uv_values (a b k : List ℝ) (ha : a.length = k.length)
    (hb : b.length = k.length) (i : ℕ) (hi : i < k.length)
    (h8 : k.getD i 0 = 8) :
    (applyLaws a b k).1.getD i 0 =
      1.752 - 0.316*8 - 0.104/(((8:ℝ) - 4.67)^2 + 0.341)
        + (-0.04473*((8:ℝ) - 5.9)^2 - 0.009779*((8:ℝ) - 5.9)^3) ∧
    (applyLaws a b k).2.getD i 0 =
      -3.090 + 1.825*8 + 1.206/(((8:ℝ) - 4.62)^2 + 0.263)
        + (-0.2130*((8:ℝ) - 5.9)^2 - 0.1207*((8:ℝ) - 5.9)^3) ∧
    (law_fuv a b k).1.getD i 0 = a.getD i 0 ∧
    (law_fuv a b k).2.getD i 0 = b.getD i 0 ∧
    (applyLaws a b k).1.getD i 0 ≠ -1.073 ∧
    (applyLaws a b k).2.getD i 0 ≠ 13.670 := by
  rw [applyLaws_getD_fst a b k ha i hi, applyLaws_getD_snd a b k hb i hi]
  unfold law_fuv
  rw [getD_zipWith _ _ _ i (by rw [ha]; exact hi) hi,
    getD_zipWith _ _ _ i (by rw [hb]; exact hi) hi, h8]
  norm_num [pointA, pointB, updIrA, updIrB, updNirA, updNirB, updFuvA, updFuvB,
    updUvA, updUvB, uvValA, uvValB, f_a, f_b]

theorem boundary_k8_uv_values_witness :
    ((applyLaws [0] [0] [8]).1.getD 0 0 =
      1.752 - 0.316*8 - 0.104/(((8:ℝ) - 4.67)^2 + 0.341)
        + (-0.04473*((8:ℝ) - 5.9)^2 - 0.009779*((8:ℝ) - 5.9)^3)) ∧
    ((applyLaws [0] [0] [8]).2.getD 0 0 =
      -3.090 + 1.825*8 + 1.206/(((8:ℝ) - 4.62)^2 + 0.263)
        + (-0.2130*((8:ℝ) - 5.9)^2 - 0.1207*((8:ℝ) - 5.9)^3)) ∧
    (law_fuv [0] [0] [8]).1.getD 0 0 = [(0:ℝ)].getD 0 0 ∧
    (law_fuv [0] [0] [8]).2.getD 0 0 = [(0:ℝ)].getD 0 0 ∧
    (applyLaws [0] [0] [8]).1.getD 0 0 ≠ -1.073 ∧
    (applyLaws [0] [0] [8]).2.getD 0 0 ≠ 13.670 :=
  boundary_k8_uv_values [0] [0] [8] rfl rfl 0 (by norm_num) (by norm_num)

/-- C5 counterexample: at wavenumber exactly 8.0 the coefficients after all band
functions are not the far-UV values `a = -1.073`, `b = 13.670`. -/
theorem boundary_k8_not_fuv_values :
    ¬ ((applyLaws [0] [0] [8]).1.getD 0 0 = -1.073 ∧
       (applyLaws [0] [0] [8]).2.getD 0 0 = 13.670) := by
  intro h
  have hB := h.2
  rw [applyLaws_getD_snd [0] [0] [8] rfl 0 (by norm_num)] at hB
  norm_num [pointB, updIrB, updNirB, updFuvB, updUvB, uvValB, f_b] at hB

/-- C8 (amended): a zero entry in `wave` does not raise: `dered` still returns
an output vector; the reciprocal is out of every band (IEEE `1/0 = inf` in the
source; `1/0 = 0` here, where the IR value is also 0), both coefficients at
that position are 0, so the correction factor is `10^0 = 1` and the output
equals the input flux there (finite, neither infinite nor NaN). -/
theorem dered_zero_wavelength_total (wave flux : List ℝ) (e R : ℝ)
    (hlen : wave.length = flux.length) (i : ℕ) (hi : i < wave.length)
    (h0 : wave.getD i 0 = 0) :
    ccm_a (1 / wave.getD i 0) = 0 ∧ ccm_b (1 / wave.getD i 0) = 0 ∧
    ∃ out : List ℝ, dered wave flux e R = some out ∧
      out.getD i 0 = flux.getD i 0 := by
  have hrec : (1 : ℝ) / wave.getD i 0 = 0 := by rw [h0]; norm_num
  have hca : ccm_a (1 / wave.getD i 0) = 0 := by
    rw [hrec]
    unfold ccm_a
    rw [if_pos (by norm_num : (0:ℝ) ≤ 1.1)]
    unfold irValA
    rw [Real.zero_rpow (by norm_num), mul_zero]
  have hcb : ccm_b (1 / wave.getD i 0) = 0 := by
    rw [hrec]
    unfold ccm_b
    rw [if_pos (by norm_num : (0:ℝ) ≤ 1.1)]
    unfold irValB
    rw [Real.zero_rpow (by norm_num), mul_zero]
  obtain ⟨out, hsome, _hl, hgd⟩ := dered_spec wave flux e R hlen
  refine ⟨hca, hcb, out, hsome, ?_⟩
  rw [hgd i (by rw [← hlen]; exact hi), hca, hcb]
  simp [Real.rpow_zero]

theorem dered_zero_wavelength_total_witness :
    ccm_a (1 / [(0:ℝ)].getD 0 0) = 0 ∧ ccm_b (1 / [(0:ℝ)].getD 0 0) = 0 ∧
    ∃ out : List ℝ, dered [0] [5] 1 2 = some out ∧
      out.getD 0 0 = [(5:ℝ)].getD 0 0 :=
  dered_zero_wavelength_total [0] [5] 1 2 rfl 0 (by norm_num) (by norm_num)

/-- C8 counterexample: `dered` on a wavelength vector containing zero raises
nothing and does return a flux vector: at `wave = [0]`, `flux = [5]` it
returns `[5]`. -/
theorem dered_zero_wavelength_returns : dered [0] [5] 1 2 = some [5] := by
  obtain ⟨out, hsome, hl, hgd⟩ := dered_spec [0] [5] 1 2 rfl
  have h0 : out.getD 0 0 = 5 := by
    rw [hgd 0 (by norm_num)]
    have hca : ccm_a ((1:ℝ) / [(0:ℝ)].getD 0 0) = 0 := by
      norm_num
      unfold ccm_a
      rw [if_pos (by norm_num : (0:ℝ) ≤ 1.1)]
      unfold irValA
      rw [Real.zero_rpow (by norm_num), mul_zero]
    have hcb : ccm_b ((1:ℝ) / [(0:ℝ)].getD 0 0) = 0 := by
      norm_num
      unfold ccm_b
      rw [if_pos (by norm_num : (0:ℝ) ≤ 1.1)]
      unfold irValB
      rw [Real.zero_rpow (by norm_num), mul_zero]
    rw [hca, hcb]
    simp [Real.rpow_zero]
  rw [hsome, eq_singleton_of_length_getD out 5 (by simpa using hl) h0]

/-- C9 (amended): `dered` fails with a broadcast (length-mismatch) error exactly
when the two lengths differ and neither vector has length 1; a length-1
operand is broadcast by numpy, producing an output of the longer length. -/
theorem dered_length_mismatch_none (wave flux : List ℝ) (e R : ℝ)
    (hne : wave.length ≠ flux.length) (hw : wave.length ≠ 1)
    (hf : flux.length ≠ 1) :
    dered wave flux e R = none := by
  unfold dered broadcastMul
  have h1 : ¬ (flux.length = (factorList wave e R).length) := by
    rw [factorList_length]
    exact fun h => hne h.symm
  have h3 : ¬ ((factorList wave e R).length = 1) := by
    rw [factorList_length]
    exact hw
  rw [if_neg h1, if_neg hf, if_neg h3]

theorem dered_length_mismatch_none_witness : dered [1, 2] [1, 2, 3] 0 3 = none :=
  dered_length_mismatch_none [1, 2] [1, 2, 3] 0 3 (by norm_num) (by norm_num) (by norm_num)

/-- C9 counterexample: with `wave` of length 1 and `flux` of length 2 (lengths
differ), `dered` does not fail: numpy broadcasting stretches the length-1
factor and an output vector is produced. -/
theorem dered_broadcast_singleton : dered [2] [1, 1] 0 3 = some [1, 1] := by
  have hf : factorList [2] 0 3 = [1] := by
    apply eq_singleton_of_length_getD
    · rw [factorList_length]; rfl
    · rw [factorList_getD [2] 0 3 0 (by norm_num)]
      simp [Real.rpow_zero]
  unfold dered
  rw [hf]
  unfold broadcastMul
  norm_num [List.headI]

theorem out_of_range_unchanged_witness :
    (∀ x : ℝ, pointA x (1 / [(0.05 : ℝ)].getD 0 0) = x) ∧
    (∀ x : ℝ, pointB x (1 / [(0.05 : ℝ)].getD 0 0) = x) ∧
    ccm_a (1 / [(0.05 : ℝ)].getD 0 0) = 0 ∧ ccm_b (1 / [(0.05 : ℝ)].getD 0 0) = 0 ∧
    ∃ out : List ℝ, dered [0.05] [9] 2 5 = some out ∧
      out.getD 0 0 = [(9 : ℝ)].getD 0 0 :=
  out_of_range_unchanged [0.05] [9] 2 5 rfl 0 (by norm_num) (by norm_num)

end
